import Mathlib

/-!
# Quaternion Julia fractal renderer (`quat-fractal/main.cpp`)

A shallow embedding of `calcPixelValue` and `renderFrame`.

* The quaternion arithmetic and the escape-time loop are written over an arbitrary
  scalar type with `+`, `-`, `*` and a decidable `<`; no law of arithmetic or of
  the order is assumed, so the type can hold a NaN (`WithNaN`) and its operations
  may round.
* The colour mapper and the statements that use the laws of arithmetic take the
  scalar to be a linearly ordered field `α` with a floor function (`ℚ` for
  evaluation, `ℝ` for the statements that speak about `sqrt`, `log2` and `exp`).
* `kulib::quaternion` and the raylib helpers `Clamp` / `ColorLerp` are not part of
  `main.cpp`; they are written down from the specification.
* The `<cmath>` functions are passed to the embedding as a record `libm`.
-/

namespace QuatFractal

/-! ## Quaternion arithmetic (`kulib/kulib.hpp`) -/

namespace kulib

/-- Modelled from the spec: the value type `kulib::quaternion<T>` declared in the
header `kulib/kulib.hpp`, "four real-valued components (real + three imaginary
units)".  The accessors used by `main.cpp` are `real()`, `x()`, `y()`. -/
structure quaternion (α : Type) where
  real : α
  x : α
  y : α
  z : α
deriving DecidableEq, Repr

namespace quaternion

variable {α : Type} [Add α] [Sub α] [Mul α]

/-- Modelled from the spec: `operator+` of `kulib::quaternion`, "`add` returns
component-wise sum". -/
def add (a b : quaternion α) : quaternion α :=
  { real := a.real + b.real, x := a.x + b.x, y := a.y + b.y, z := a.z + b.z }

/-- Modelled from the spec: `operator*` of `kulib::quaternion`, "`multiply` returns
the Hamilton product" of `a.real + a.x i + a.y j + a.z k` and `b`. -/
def mul (a b : quaternion α) : quaternion α :=
  { real := a.real * b.real - a.x * b.x - a.y * b.y - a.z * b.z
    x := a.real * b.x + a.x * b.real + a.y * b.z - a.z * b.y
    y := a.real * b.y - a.x * b.z + a.y * b.real + a.z * b.x
    z := a.real * b.z + a.x * b.y - a.y * b.x + a.z * b.real }

instance : Add (quaternion α) := ⟨add⟩

instance : Mul (quaternion α) := ⟨mul⟩

/-- Modelled from the spec: `norm2()` of `kulib::quaternion`, "`squaredNorm` returns
sum of squares of the four components". -/
def norm2 (q : quaternion α) : α :=
  q.real * q.real + q.x * q.x + q.y * q.y + q.z * q.z

/-- Modelled from the spec: `norm()` of `kulib::quaternion`, "`norm` returns the
square root of `squaredNorm`"; the square root is the argument `sqrtf`. -/
def norm (sqrtf : α → α) (q : quaternion α) : α :=
  sqrtf q.norm2

end quaternion

end kulib

open kulib

/-! ## Constants of the anonymous namespace -/

/-- Source constant `width`. -/
def width : Nat := 800

/-- Source constant `height`. -/
def height : Nat := 450

/-- Source constant `antialias_samples`. -/
def antialias_samples : Nat := 2

/-- Source constant `max_iter`. -/
def max_iter : Nat := 40

/-- Modelled from the spec: raylib's `Color`, "4 unsigned 8-bit channels (R,G,B,A)".
Each channel is a natural number; the conversions that build a `Color` reduce
modulo `256`. -/
structure Color where
  r : Nat
  g : Nat
  b : Nat
  a : Nat
deriving DecidableEq, Repr

/-- Source constant `bg_color = {0x1B, 0x1B, 0x1B, 0xFF}`. -/
def bg_color : Color := ⟨0x1B, 0x1B, 0x1B, 0xFF⟩

/-- Source constant `teal_accent = {0x00, 0x80, 0x67, 0xFF}`. -/
def teal_accent : Color := ⟨0x00, 0x80, 0x67, 0xFF⟩

/-- Source constant `orange_accent = {0xFF, 0x90, 0x00, 0xFF}`. -/
def orange_accent : Color := ⟨0xFF, 0x90, 0x00, 0xFF⟩

/-- The `<cmath>` functions called by `calcPixelValue` (`kulib`'s `norm()` is
`sqrtf` of `norm2()`). -/
structure libm (α : Type) where
  sqrtf : α → α
  log2f : α → α
  sinf : α → α
  powf : α → α → α
  expf : α → α

/-! ## Scalars with a NaN -/

/-- A `float` value that is either a number of `α` or NaN.  As in IEEE 754, an
operation with a NaN operand yields NaN and every comparison with NaN is false. -/
inductive WithNaN (α : Type) where
  | nan : WithNaN α
  | num : α → WithNaN α
deriving DecidableEq, Repr

namespace WithNaN

variable {α : Type}

/-- A binary operation on numbers, NaN when an operand is NaN. -/
def map2 (f : α → α → α) : WithNaN α → WithNaN α → WithNaN α
  | num a, num b => num (f a b)
  | _, _ => nan

instance [Add α] : Add (WithNaN α) := ⟨map2 (fun a b => a + b)⟩

instance [Sub α] : Sub (WithNaN α) := ⟨map2 (fun a b => a - b)⟩

instance [Mul α] : Mul (WithNaN α) := ⟨map2 (fun a b => a * b)⟩

instance {n : Nat} [OfNat α n] : OfNat (WithNaN α) n := ⟨num (OfNat.ofNat n)⟩

/-- The comparison `a < b`, false when an operand is NaN. -/
def lt [LT α] : WithNaN α → WithNaN α → Prop
  | num a, num b => a < b
  | _, _ => False

/-- The comparison `a <= b`, false when an operand is NaN. -/
def le [LE α] : WithNaN α → WithNaN α → Prop
  | num a, num b => a ≤ b
  | _, _ => False

instance [LT α] : LT (WithNaN α) := ⟨lt⟩

instance [LE α] : LE (WithNaN α) := ⟨le⟩

instance decLt [LT α] [∀ a b : α, Decidable (a < b)] : ∀ a b : WithNaN α, Decidable (a < b)
  | num a, num b => inferInstanceAs (Decidable (a < b))
  | nan, _ => isFalse (fun h => h)
  | num _, nan => isFalse (fun h => h)

instance decLe [LE α] [∀ a b : α, Decidable (a ≤ b)] : ∀ a b : WithNaN α, Decidable (a ≤ b)
  | num a, num b => inferInstanceAs (Decidable (a ≤ b))
  | nan, _ => isFalse (fun h => h)
  | num _, nan => isFalse (fun h => h)

end WithNaN

/-! ## The escape-time loop (`main.cpp` lines 35-40) -/

section Loop

variable {α : Type} [Add α] [Sub α] [Mul α] [LT α] [OfNat α 4] [∀ a b : α, Decidable (a < b)]

/-- The loop `while (quat.norm2() < 4.0f && iter < max_iter) { quat = (quat * quat) + c; iter++; }`
started in the state `(quat, iter)`; the result is the state in which the loop
condition fails.  The iteration cap is the argument `maxIter`. -/
def escapeLoop (c : quaternion α) (maxIter : Nat) (quat : quaternion α) (iter : Nat) :
    quaternion α × Nat :=
  if quat.norm2 < 4 ∧ iter < maxIter then
    escapeLoop c maxIter ((quat * quat) + c) (iter + 1)
  else
    (quat, iter)
termination_by maxIter - iter
decreasing_by omega

/-- The sequence `z_0 = z0`, `z_{k+1} = z_k * z_k + c` that the loop body walks
along. -/
def orbit (c z0 : quaternion α) : Nat → quaternion α
  | 0 => z0
  | k + 1 => (orbit c z0 k * orbit c z0 k) + c

end Loop

section Embedding

variable {α : Type} [LinearOrderedField α] [FloorRing α]

/-! ## Conversions and raylib helpers -/

/-- Truncation toward zero, the integer a floating value is converted to. -/
def truncZ (x : α) : ℤ :=
  if 0 ≤ x then ⌊x⌋ else ⌈x⌉

/-- Narrowing of an integer to `unsigned char`.  The value is unchanged when it
lies in `[0, 255]`. -/
def ucharOfInt (n : ℤ) : Nat :=
  (n % 256).toNat

/-- The cast `(unsigned char)(x)` of a floating value: truncation, then narrowing.
The C++ conversion is only defined when the truncated value lies in `[0, 255]`;
outside that range this model wraps modulo `256`. -/
def ucharOfFloat (x : α) : Nat :=
  ucharOfInt (truncZ x)

/-- Modelled from the spec: raymath's `Clamp(value, min, max)` (raylib is not under
`src/`), "`t = clamp(..., 0, 1)`". -/
def Clamp (value min max : α) : α :=
  let result := if value < min then min else value
  if result > max then max else result

/-- Modelled from the spec: raylib's `ColorLerp(color1, color2, factor)` (raylib is
not under `src/`), "linearly interpolate between two fixed accent colors using
`t`"; every channel is `(unsigned char)((1 - factor)*color1 + factor*color2)` with
the factor limited to `[0, 1]`. -/
def ColorLerp (color1 color2 : Color) (factor : α) : Color :=
  let factor := if factor < 0 then 0 else if factor > 1 then 1 else factor
  { r := ucharOfFloat ((1 - factor) * (color1.r : α) + factor * (color2.r : α))
    g := ucharOfFloat ((1 - factor) * (color1.g : α) + factor * (color2.g : α))
    b := ucharOfFloat ((1 - factor) * (color1.b : α) + factor * (color2.b : α))
    a := ucharOfFloat ((1 - factor) * (color1.a : α) + factor * (color2.a : α)) }

/-! ## `calcPixelValue` (`main.cpp` lines 22-75) -/

/-- Lines 30-33: the seed `{ jx, jy, 0, 0 }` of sub-sample `(sx, sy)` of pixel
`(px, py)`; `S` is the number of samples per axis (`antialias_samples`). -/
def samplePoint (S : Nat) (px py : ℤ) (sx sy : Nat) : quaternion α :=
  let aspect_ratio : α := (width : α) / (height : α)
  let jx : α := 2.2 * (2.0 * ((px : α) + (sx : α) / (S : α)) / (width : α) - 1.0) * aspect_ratio
  let jy : α := 2.2 * (2.0 * ((py : α) + (sy : α) / (S : α)) / (height : α) - 1.0)
  { real := jx, x := jy, y := 0, z := 0 }

/-- Line 47: `dist = quat.norm()`. -/
def distOf (m : libm α) (quat : quaternion α) : α :=
  quat.norm m.sqrtf

/-- Line 48: `smoothed = (float)iter - log2f(fmaxf(1.0f, log2f(dist)))`. -/
def smoothedOf (m : libm α) (iter : Nat) (quat : quaternion α) : α :=
  (iter : α) - m.log2f (max 1 (m.log2f (distOf m quat)))

/-- Lines 51-54: the colour `ColorLerp(teal_accent, orange_accent, t)` with
`t = Clamp(powf(0.5 + 0.5*sinf(smoothed*0.15 + time*0.5), 1.2), 0, 1)`. -/
def baseColor (m : libm α) (smoothed time : α) : Color :=
  let t : α := 0.5 + 0.5 * m.sinf (smoothed * 0.15 + time * 0.5)
  let t : α := Clamp (m.powf t 1.2) 0.0 1.0
  ColorLerp teal_accent orange_accent t

/-- Line 57: `depth = 0.4 + 0.6 * (1 - expf(-smoothed * 0.08))`. -/
def depthOf (m : libm α) (smoothed : α) : α :=
  0.4 + 0.6 * (1.0 - m.expf (-smoothed * 0.08))

/-- The integer that `(unsigned char)(channel * depth)` of lines 58-60 narrows:
the truncation of the product. -/
def shadedValue (channel : Nat) (depth : α) : ℤ :=
  truncZ ((channel : α) * depth)

/-- Lines 47-60: the colour of an escaped sample as a function of `smoothed`. -/
def shadeColor (m : libm α) (smoothed time : α) : Color :=
  let sampleColor := baseColor m smoothed time
  let depth := depthOf m smoothed
  { r := ucharOfInt (shadedValue sampleColor.r depth)
    g := ucharOfInt (shadedValue sampleColor.g depth)
    b := ucharOfInt (shadedValue sampleColor.b depth)
    a := sampleColor.a }

/-- Lines 42-61: the colour-mapping branch, from the loop's final state. -/
def sampleColorOf (m : libm α) (time : α) (iter : Nat) (quat : quaternion α) : Color :=
  if iter = max_iter then bg_color
  else shadeColor m (smoothedOf m iter quat) time

/-- Lines 30-61: the colour of sub-sample `(sx, sy)` of pixel `(px, py)`. -/
def sampleAt (m : libm α) (S : Nat) (px py : ℤ) (time : α) (c : quaternion α)
    (sx sy : Nat) : Color :=
  let st := escapeLoop c max_iter (samplePoint S px py sx sy) 0
  sampleColorOf m time st.2 st.1

/-- The accumulators `(r_acc, g_acc, b_acc)` after the two nested sample loops of
lines 27-67. -/
def accumulate (m : libm α) (S : Nat) (px py : ℤ) (time : α) (c : quaternion α) : α × α × α :=
  (List.range S).foldl (fun acc sy =>
    (List.range S).foldl (fun acc sx =>
      let sampleColor := sampleAt m S px py time c sx sy
      (acc.1 + (sampleColor.r : α), acc.2.1 + (sampleColor.g : α),
        acc.2.2 + (sampleColor.b : α))) acc) (0, 0, 0)

/-- The body of `calcPixelValue` with the constant `antialias_samples` as the
argument `S`. -/
def calcPixelValueWith (S : Nat) (m : libm α) (px py : ℤ) (time : α) (c : quaternion α) :
    Color :=
  let total_samples : α := ((S * S : Nat) : α)
  let acc := accumulate m S px py time c
  { r := ucharOfFloat (acc.1 / total_samples)
    g := ucharOfFloat (acc.2.1 / total_samples)
    b := ucharOfFloat (acc.2.2 / total_samples)
    a := 255 }

/-- Source function `calcPixelValue(px, py, time, c)`. -/
def calcPixelValue (m : libm α) (px py : ℤ) (time : α) (c : quaternion α) : Color :=
  calcPixelValueWith antialias_samples m px py time c

/-! ## `renderFrame` (`main.cpp` lines 77-84) -/

/-- The loop body `frame_buffer[y * width + x] = calcPixelValue(x, y, time, c)` for
the pixel `p = (y, x)`. -/
def writePixel (m : libm α) (time : α) (c : quaternion α) (frame_buffer : List Color)
    (p : Nat × Nat) : List Color :=
  frame_buffer.set (p.1 * width + p.2) (calcPixelValue m (p.2 : ℤ) (p.1 : ℤ) time c)

/-- The pixels `(y, x)` in the order of the sequential loops
`for y in [0, height)`, `for x in [0, width)`. -/
def rowMajor : List (Nat × Nat) :=
  (List.range height).flatMap (fun y => (List.range width).map (fun x => (y, x)))

/-- The frame loop with its iterations executed in the order `order`, which is how
a schedule of the `omp parallel for` is represented. -/
def renderFrameIn (order : List (Nat × Nat)) (m : libm α) (frame_buffer : List Color)
    (time : α) (c : quaternion α) : List Color :=
  order.foldl (writePixel m time c) frame_buffer

/-- Source function `renderFrame(frame_buffer, time, c)`, iterations in program
order. -/
def renderFrame (m : libm α) (frame_buffer : List Color) (time : α) (c : quaternion α) :
    List Color :=
  renderFrameIn rowMajor m frame_buffer time c

end Embedding

/-! ## Facts about the escape-time loop -/

section LoopAny

variable {α : Type} [Add α] [Sub α] [Mul α] [LT α] [OfNat α 4] [∀ a b : α, Decidable (a < b)]

theorem escapeLoop_unfold (c : quaternion α) (maxIter : Nat) (quat : quaternion α) (iter : Nat) :
    escapeLoop c maxIter quat iter =
      if quat.norm2 < 4 ∧ iter < maxIter then
        escapeLoop c maxIter ((quat * quat) + c) (iter + 1)
      else (quat, iter) := by
  rw [escapeLoop]

/-- Started on the orbit at index `k`, with the test `norm2 < 4` true at every
earlier iterate, the loop stops on the orbit at the index it returns, which is the
first index at or after `k` where the test is false, capped by `maxIter`.  Nothing
is assumed about the arithmetic or the comparison. -/
theorem escapeLoop_along_orbit (c z0 : quaternion α) (maxIter : Nat) (k : Nat)
    (hk : k ≤ maxIter) (hin : ∀ j, j < k → (orbit c z0 j).norm2 < 4) :
    (escapeLoop c maxIter (orbit c z0 k) k).1
        = orbit c z0 (escapeLoop c maxIter (orbit c z0 k) k).2 ∧
      (escapeLoop c maxIter (orbit c z0 k) k).2 ≤ maxIter ∧
      (∀ j, j < (escapeLoop c maxIter (orbit c z0 k) k).2 → (orbit c z0 j).norm2 < 4) ∧
      ((escapeLoop c maxIter (orbit c z0 k) k).2 < maxIter →
        ¬ (orbit c z0 (escapeLoop c maxIter (orbit c z0 k) k).2).norm2 < 4) := by
  obtain ⟨n, hn⟩ : ∃ n, n = maxIter - k := ⟨_, rfl⟩
  induction n generalizing k with
  | zero =>
    have hlt : ¬ k < maxIter := by omega
    rw [escapeLoop_unfold, if_neg (fun h => hlt h.2)]
    exact ⟨rfl, hk, hin, fun h => absurd h hlt⟩
  | succ n ih =>
    rw [escapeLoop_unfold]
    by_cases hcond : (orbit c z0 k).norm2 < 4 ∧ k < maxIter
    · rw [if_pos hcond]
      have hstep : (orbit c z0 k * orbit c z0 k) + c = orbit c z0 (k + 1) := rfl
      rw [hstep]
      refine ih (k + 1) (by omega) ?_ (by omega)
      intro j hj
      rcases Nat.lt_succ_iff_lt_or_eq.mp hj with h | h
      · exact hin j h
      · rw [h]; exact hcond.1
    · rw [if_neg hcond]
      exact ⟨rfl, hk, hin, fun h h4 => hcond ⟨h4, h⟩⟩

end LoopAny

section NaNFacts

variable {α : Type}

theorem WithNaN.not_nan_lt [LT α] (b : WithNaN α) : ¬ (WithNaN.nan < b) :=
  fun h => h

theorem WithNaN.not_le_nan [LE α] (a : WithNaN α) : ¬ (a ≤ WithNaN.nan) := by
  cases a with
  | nan => exact fun h => h
  | num a => exact fun h => h

theorem WithNaN.num_lt_num [LT α] (a b : α) :
    (WithNaN.num a < WithNaN.num b) ↔ a < b :=
  Iff.rfl

theorem WithNaN.num_le_num [LE α] (a b : α) :
    (WithNaN.num a ≤ WithNaN.num b) ↔ a ≤ b :=
  Iff.rfl

/-- On a linear order with NaN, the test `a < b` is false exactly when an operand
is NaN or `b <= a`. -/
theorem WithNaN.not_lt_iff [LinearOrder α] (a b : WithNaN α) :
    ¬ (a < b) ↔ (a = WithNaN.nan ∨ b = WithNaN.nan ∨ b ≤ a) := by
  cases a with
  | nan => exact ⟨fun _ => Or.inl rfl, fun _ h => h⟩
  | num a =>
    cases b with
    | nan => exact ⟨fun _ => Or.inr (Or.inl rfl), fun _ h => h⟩
    | num b =>
      rw [WithNaN.num_lt_num, not_lt]
      constructor
      · intro h
        exact Or.inr (Or.inr ((WithNaN.num_le_num b a).mpr h))
      · rintro (h | h | h)
        · exact absurd h (by simp)
        · exact absurd h (by simp)
        · exact (WithNaN.num_le_num b a).mp h

theorem WithNaN.num_add_num [Add α] (a b : α) :
    WithNaN.num a + WithNaN.num b = WithNaN.num (a + b) := rfl

theorem WithNaN.num_sub_num [Sub α] (a b : α) :
    WithNaN.num a - WithNaN.num b = WithNaN.num (a - b) := rfl

theorem WithNaN.num_mul_num [Mul α] (a b : α) :
    WithNaN.num a * WithNaN.num b = WithNaN.num (a * b) := rfl

theorem WithNaN.add_nan [Add α] (a : WithNaN α) : a + WithNaN.nan = WithNaN.nan := by
  cases a <;> rfl

theorem WithNaN.nan_add [Add α] (a : WithNaN α) : WithNaN.nan + a = WithNaN.nan := rfl

theorem WithNaN.nan_mul [Mul α] (a : WithNaN α) : WithNaN.nan * a = WithNaN.nan := rfl

theorem WithNaN.ofNat_eq_num (n : Nat) [OfNat α n] :
    (OfNat.ofNat n : WithNaN α) = WithNaN.num (OfNat.ofNat n) := rfl

/-- The loop on the seed `(0,0,0,0)` with the constant `(NaN,0,0,0)`: one execution
of the body, then the test `norm2 < 4` is false because `norm2` is NaN. -/
theorem escapeLoop_nan_run :
    escapeLoop (⟨.nan, 0, 0, 0⟩ : quaternion (WithNaN ℚ)) 40 ⟨0, 0, 0, 0⟩ 0
      = (⟨.nan, 0, 0, 0⟩, 1) := by
  have e1 : (⟨0, 0, 0, 0⟩ : quaternion (WithNaN ℚ)).norm2 < 4 := by
    simp only [quaternion.norm2, WithNaN.ofNat_eq_num, WithNaN.num_mul_num,
      WithNaN.num_add_num, WithNaN.num_lt_num]
    norm_num
  have e2 : ((⟨0, 0, 0, 0⟩ : quaternion (WithNaN ℚ)) * ⟨0, 0, 0, 0⟩) + ⟨.nan, 0, 0, 0⟩
      = ⟨.nan, 0, 0, 0⟩ := by
    show quaternion.add (quaternion.mul _ _) _ = _
    simp only [quaternion.add, quaternion.mul, WithNaN.ofNat_eq_num, WithNaN.num_mul_num,
      WithNaN.num_add_num, WithNaN.num_sub_num, WithNaN.add_nan]
    norm_num
  have e3 : ¬ (⟨.nan, 0, 0, 0⟩ : quaternion (WithNaN ℚ)).norm2 < 4 := by
    simp only [quaternion.norm2, WithNaN.nan_mul, WithNaN.nan_add]
    exact WithNaN.not_nan_lt _
  rw [escapeLoop_unfold, if_pos ⟨e1, by norm_num⟩, e2, escapeLoop_unfold,
    if_neg (fun h => e3 h.1)]

theorem norm2_nan_run :
    (⟨.nan, 0, 0, 0⟩ : quaternion (WithNaN ℚ)).norm2 = WithNaN.nan := by
  simp only [quaternion.norm2, WithNaN.nan_mul, WithNaN.nan_add]

end NaNFacts

section LoopFacts

variable {α : Type} [LinearOrderedField α]

/-- Over a linearly ordered field the test `norm2 < 4` is false exactly when
`4 ≤ norm2`. -/
theorem escapeLoop_from_orbit (c z0 : quaternion α) (maxIter : Nat) (k : Nat)
    (hk : k ≤ maxIter) (hin : ∀ j, j < k → (orbit c z0 j).norm2 < 4) :
    (escapeLoop c maxIter (orbit c z0 k) k).1
        = orbit c z0 (escapeLoop c maxIter (orbit c z0 k) k).2 ∧
      (escapeLoop c maxIter (orbit c z0 k) k).2 ≤ maxIter ∧
      (∀ j, j < (escapeLoop c maxIter (orbit c z0 k) k).2 → (orbit c z0 j).norm2 < 4) ∧
      ((escapeLoop c maxIter (orbit c z0 k) k).2 < maxIter →
        4 ≤ (orbit c z0 (escapeLoop c maxIter (orbit c z0 k) k).2).norm2) := by
  obtain ⟨h1, h2, h3, h4⟩ := escapeLoop_along_orbit c z0 maxIter k hk hin
  exact ⟨h1, h2, h3, fun h => not_lt.mp (h4 h)⟩

/-- The product of a quaternion without `k` part with itself has no `k` part. -/
theorem mul_self_add_z (q c : quaternion α) (hq : q.z = 0) (hc : c.z = 0) :
    ((q * q) + c).z = 0 := by
  show q.real * q.z + q.x * q.y - q.y * q.x + q.z * q.real + c.z = 0
  rw [hq, hc]
  ring

theorem orbit_z_eq_zero (c z0 : quaternion α) (hz : z0.z = 0) (hc : c.z = 0) (k : Nat) :
    (orbit c z0 k).z = 0 := by
  induction k with
  | zero => exact hz
  | succ k ih => exact mul_self_add_z _ _ ih hc

theorem orbit_zero (k : Nat) :
    orbit (⟨0, 0, 0, 0⟩ : quaternion α) ⟨0, 0, 0, 0⟩ k = ⟨0, 0, 0, 0⟩ := by
  induction k with
  | zero => rfl
  | succ k ih =>
    show (orbit _ _ k * orbit _ _ k) + _ = _
    rw [ih]
    show quaternion.add (quaternion.mul _ _) _ = _
    simp [quaternion.add, quaternion.mul]

theorem escapeLoop_stop (c z0 : quaternion α) (maxIter : Nat) (h : 4 ≤ z0.norm2) :
    escapeLoop c maxIter z0 0 = (z0, 0) := by
  rw [escapeLoop_unfold, if_neg]
  exact fun hc => absurd hc.1 (not_lt.mpr h)

theorem norm2_zero : (⟨0, 0, 0, 0⟩ : quaternion α).norm2 = 0 := by
  simp [quaternion.norm2]

/-- With `c = 0` and the seed `0` the loop runs to the cap and stays at `0`. -/
theorem escapeLoop_zero (maxIter : Nat) :
    escapeLoop (⟨0, 0, 0, 0⟩ : quaternion α) maxIter ⟨0, 0, 0, 0⟩ 0 = (⟨0, 0, 0, 0⟩, maxIter) := by
  have h := escapeLoop_from_orbit (⟨0, 0, 0, 0⟩ : quaternion α) ⟨0, 0, 0, 0⟩ maxIter 0
    (Nat.zero_le _) (fun j hj => absurd hj (Nat.not_lt_zero j))
  have h0 : orbit (⟨0, 0, 0, 0⟩ : quaternion α) ⟨0, 0, 0, 0⟩ 0 = ⟨0, 0, 0, 0⟩ := rfl
  rw [h0] at h
  obtain ⟨h1, h2, _, h4⟩ := h
  rw [orbit_zero] at h1
  have hEq : (escapeLoop (⟨0, 0, 0, 0⟩ : quaternion α) maxIter ⟨0, 0, 0, 0⟩ 0).2 = maxIter := by
    by_contra hne
    have h5 := h4 (lt_of_le_of_ne h2 hne)
    rw [orbit_zero, norm2_zero] at h5
    exact absurd h5 (by norm_num)
  exact Prod.ext h1 hEq

theorem samplePoint_single (px py : ℤ) :
    (samplePoint 1 px py 0 0 : quaternion α) = samplePoint 2 px py 0 0 := by
  simp [samplePoint]

theorem samplePoint_centre :
    (samplePoint antialias_samples 400 225 0 0 : quaternion α) = ⟨0, 0, 0, 0⟩ := by
  simp only [samplePoint, width, height, antialias_samples]
  norm_num

end LoopFacts


section ColourFacts

variable {α : Type} [LinearOrderedField α] [FloorRing α]

theorem truncZ_of_nonneg (x : α) (h : 0 ≤ x) : truncZ x = ⌊x⌋ := by
  unfold truncZ
  rw [if_pos h]

theorem truncZ_of_neg (x : α) (h : x < 0) : truncZ x = ⌈x⌉ := by
  unfold truncZ
  rw [if_neg (not_le.mpr h)]

theorem shadedValue_range (channel : Nat) (hch : channel < 256) (depth : α)
    (h0 : 0 ≤ depth) (h1 : depth ≤ 1) :
    0 ≤ shadedValue channel depth ∧ shadedValue channel depth ≤ 255 := by
  have hc0 : (0 : α) ≤ (channel : α) := Nat.cast_nonneg channel
  have hx0 : (0 : α) ≤ (channel : α) * depth := mul_nonneg hc0 h0
  have hx1 : (channel : α) * depth ≤ ((255 : ℤ) : α) := by
    have hc : (channel : α) ≤ 255 := by
      have : channel ≤ 255 := by omega
      exact_mod_cast this
    have : (channel : α) * depth ≤ (channel : α) * 1 := mul_le_mul_of_nonneg_left h1 hc0
    push_cast
    linarith
  unfold shadedValue
  rw [truncZ_of_nonneg _ hx0]
  refine ⟨Int.floor_nonneg.mpr hx0, ?_⟩
  have h2 : ((⌊(channel : α) * depth⌋ : ℤ) : α) ≤ ((255 : ℤ) : α) :=
    le_trans (Int.floor_le _) hx1
  exact_mod_cast h2

theorem ucharOfInt_lt (n : ℤ) : ucharOfInt n < 256 := by
  unfold ucharOfInt
  have h1 : n % 256 < 256 := Int.emod_lt_of_pos n (by norm_num)
  have h2 : 0 ≤ n % 256 := Int.emod_nonneg n (by norm_num)
  omega

theorem ucharOfInt_of_range (n : ℤ) (h0 : 0 ≤ n) (h1 : n ≤ 255) : (ucharOfInt n : ℤ) = n := by
  unfold ucharOfInt
  rw [Int.emod_eq_of_lt h0 (by omega)]
  exact Int.toNat_of_nonneg h0

theorem baseColor_lt (m : libm α) (smoothed time : α) :
    (baseColor m smoothed time).r < 256 ∧ (baseColor m smoothed time).g < 256 ∧
      (baseColor m smoothed time).b < 256 :=
  ⟨ucharOfInt_lt _, ucharOfInt_lt _, ucharOfInt_lt _⟩

/-- The green channel of the interpolated colour lies between the green channels
`0x80` and `0x90` of the two accents. -/
theorem baseColor_g_ge (m : libm α) (smoothed time : α) :
    128 ≤ (baseColor m smoothed time).g := by
  unfold baseColor ColorLerp
  simp only [teal_accent, orange_accent]
  generalize Clamp (m.powf (0.5 + 0.5 * m.sinf (smoothed * 0.15 + time * 0.5)) 1.2) 0.0 1.0 = t
  set f : α := if t < 0 then 0 else if t > 1 then 1 else t with hf
  have hf0 : 0 ≤ f := by
    rw [hf]; split_ifs <;> linarith
  have hf1 : f ≤ 1 := by
    rw [hf]; split_ifs <;> linarith
  have hx0 : ((128 : ℤ) : α) ≤ (1 - f) * ((128 : ℕ) : α) + f * ((144 : ℕ) : α) := by
    push_cast; linarith
  have hx1 : (1 - f) * ((128 : ℕ) : α) + f * ((144 : ℕ) : α) ≤ ((144 : ℤ) : α) := by
    push_cast; linarith
  have hxn : (0 : α) ≤ (1 - f) * ((128 : ℕ) : α) + f * ((144 : ℕ) : α) := by
    push_cast at hx0 ⊢; linarith
  have hfl0 : 128 ≤ ⌊(1 - f) * ((128 : ℕ) : α) + f * ((144 : ℕ) : α)⌋ := Int.le_floor.mpr hx0
  have hfl1 : ⌊(1 - f) * ((128 : ℕ) : α) + f * ((144 : ℕ) : α)⌋ ≤ 144 := by
    have : ((⌊(1 - f) * ((128 : ℕ) : α) + f * ((144 : ℕ) : α)⌋ : ℤ) : α) ≤ ((144 : ℤ) : α) :=
      le_trans (Int.floor_le _) hx1
    exact_mod_cast this
  show 128 ≤ ucharOfFloat ((1 - f) * ((128 : ℕ) : α) + f * ((144 : ℕ) : α))
  unfold ucharOfFloat
  rw [truncZ_of_nonneg _ hxn]
  have := ucharOfInt_of_range _ (by omega : (0:ℤ) ≤ ⌊(1 - f) * ((128 : ℕ) : α) + f * ((144 : ℕ) : α)⌋) (by omega)
  omega

end ColourFacts

section RealFacts

theorem exp_048_le : Real.exp 0.48 ≤ 5 / 3 := by
  have h1 : Real.exp 0.06 ≤ 1 / (1 - 0.06) :=
    Real.exp_bound_div_one_sub_of_interval (by norm_num) (by norm_num)
  have h2 : Real.exp 0.48 = Real.exp 0.06 ^ 8 := by
    rw [← Real.exp_nat_mul]
    norm_num
  rw [h2]
  calc Real.exp 0.06 ^ 8 ≤ (1 / (1 - 0.06)) ^ 8 :=
        pow_le_pow_left₀ (Real.exp_pos _).le h1 8
    _ ≤ 5 / 3 := by norm_num

/-- For `smoothed ≥ -6` the depth factor lies in `[0, 1)`. -/
theorem depthOf_range (m : libm ℝ) (hexp : m.expf = Real.exp) (smoothed : ℝ)
    (h : -6 ≤ smoothed) : 0 ≤ depthOf m smoothed ∧ depthOf m smoothed < 1 := by
  unfold depthOf
  rw [hexp]
  have hpos : 0 < Real.exp (-smoothed * 0.08) := Real.exp_pos _
  have hle : Real.exp (-smoothed * 0.08) ≤ 5 / 3 :=
    le_trans (Real.exp_le_exp.mpr (by linarith)) exp_048_le
  generalize Real.exp (-smoothed * 0.08) = e at hpos hle ⊢
  constructor <;> norm_num <;> linarith

/-- At `smoothed = -100` the depth factor is below `-4`. -/
theorem depthOf_neg_hundred (m : libm ℝ) (hexp : m.expf = Real.exp) :
    depthOf m (-100) ≤ -4 := by
  unfold depthOf
  rw [hexp]
  have h : (8 : ℝ) + 1 ≤ Real.exp (-(-100) * 0.08) := by
    have := Real.add_one_le_exp (8 : ℝ)
    norm_num at this ⊢
    exact this
  generalize Real.exp (-(-100) * 0.08) = e at h ⊢
  norm_num at h ⊢
  linarith

end RealFacts

/-! ## Facts about the sample average -/

section AverageFacts

variable {α : Type} [LinearOrderedField α] [FloorRing α]

theorem ucharOfFloat_natCast_div (n k : ℕ) (h : n / k < 256) :
    ucharOfFloat ((n : α) / (k : α)) = n / k := by
  have h0 : (0 : α) ≤ (n : α) / (k : α) := div_nonneg (Nat.cast_nonneg n) (Nat.cast_nonneg k)
  unfold ucharOfFloat
  rw [truncZ_of_nonneg _ h0, ← Int.natCast_floor_eq_floor h0, Nat.floor_div_eq_div]
  unfold ucharOfInt
  generalize n / k = q at h ⊢
  omega

theorem sampleAt_lt (m : libm α) (S : Nat) (px py : ℤ) (time : α) (c : quaternion α)
    (sx sy : Nat) :
    (sampleAt m S px py time c sx sy).r < 256 ∧ (sampleAt m S px py time c sx sy).g < 256 ∧
      (sampleAt m S px py time c sx sy).b < 256 := by
  unfold sampleAt sampleColorOf
  by_cases h : (escapeLoop c max_iter (samplePoint S px py sx sy) 0).2 = max_iter
  · simp only [if_pos h]
    simp [bg_color]
  · simp only [if_neg h]
    exact ⟨ucharOfInt_lt _, ucharOfInt_lt _, ucharOfInt_lt _⟩

theorem accumulate_two (m : libm α) (px py : ℤ) (time : α) (c : quaternion α) :
    accumulate m 2 px py time c =
      ((((sampleAt m 2 px py time c 0 0).r + (sampleAt m 2 px py time c 1 0).r
          + (sampleAt m 2 px py time c 0 1).r + (sampleAt m 2 px py time c 1 1).r : ℕ) : α),
       (((sampleAt m 2 px py time c 0 0).g + (sampleAt m 2 px py time c 1 0).g
          + (sampleAt m 2 px py time c 0 1).g + (sampleAt m 2 px py time c 1 1).g : ℕ) : α),
       (((sampleAt m 2 px py time c 0 0).b + (sampleAt m 2 px py time c 1 0).b
          + (sampleAt m 2 px py time c 0 1).b + (sampleAt m 2 px py time c 1 1).b : ℕ) : α)) := by
  have hr : List.range 2 = [0, 1] := rfl
  simp only [accumulate, hr, List.foldl_cons, List.foldl_nil, zero_add]
  push_cast
  rfl

theorem accumulate_one (m : libm α) (px py : ℤ) (time : α) (c : quaternion α) :
    accumulate m 1 px py time c =
      (((sampleAt m 1 px py time c 0 0).r : α), ((sampleAt m 1 px py time c 0 0).g : α),
       ((sampleAt m 1 px py time c 0 0).b : α)) := by
  have hr : List.range 1 = [0] := rfl
  simp only [accumulate, hr, List.foldl_cons, List.foldl_nil, zero_add]

/-- Among four natural numbers indexed by `(sx, sy)` with `sx, sy < 2`, the
truncated mean differs from the entry `(0, 0)` by at most the difference of two
of the entries. -/
theorem mean_of_four_bound (f : ℕ → ℕ → ℕ) :
    ∃ sx sy tx ty : ℕ, sx < 2 ∧ sy < 2 ∧ tx < 2 ∧ ty < 2 ∧
      |(((f 0 0 + f 1 0 + f 0 1 + f 1 1) / 4 : ℕ) : ℤ) - (f 0 0 : ℤ)|
        ≤ |(f sx sy : ℤ) - (f tx ty : ℤ)| := by
  have hne : (Finset.range 2 ×ˢ Finset.range 2).Nonempty := ⟨(0, 0), by simp⟩
  obtain ⟨p, hp, hmax⟩ := Finset.exists_max_image _ (fun q : ℕ × ℕ => f q.1 q.2) hne
  obtain ⟨q, hq, hmin⟩ := Finset.exists_min_image _ (fun q : ℕ × ℕ => f q.1 q.2) hne
  simp only [Finset.mem_product, Finset.mem_range] at hp hq
  have mem : ∀ i j : ℕ, i < 2 → j < 2 → (i, j) ∈ Finset.range 2 ×ˢ Finset.range 2 := by
    intro i j hi hj
    simp [hi, hj]
  have a1 := hmax (0, 0) (mem 0 0 (by norm_num) (by norm_num))
  have a2 := hmax (1, 0) (mem 1 0 (by norm_num) (by norm_num))
  have a3 := hmax (0, 1) (mem 0 1 (by norm_num) (by norm_num))
  have a4 := hmax (1, 1) (mem 1 1 (by norm_num) (by norm_num))
  have b1 := hmin (0, 0) (mem 0 0 (by norm_num) (by norm_num))
  have b2 := hmin (1, 0) (mem 1 0 (by norm_num) (by norm_num))
  have b3 := hmin (0, 1) (mem 0 1 (by norm_num) (by norm_num))
  have b4 := hmin (1, 1) (mem 1 1 (by norm_num) (by norm_num))
  simp only at a1 a2 a3 a4 b1 b2 b3 b4
  refine ⟨p.1, p.2, q.1, q.2, hp.1, hp.2, hq.1, hq.2, ?_⟩
  rw [abs_le]
  have hpq : (f p.1 p.2 : ℤ) - (f q.1 q.2 : ℤ) ≤ |(f p.1 p.2 : ℤ) - (f q.1 q.2 : ℤ)| := le_abs_self _
  constructor <;> omega

theorem calcPixelValueWith_one (m : libm α) (px py : ℤ) (time : α) (c : quaternion α) :
    calcPixelValueWith 1 m px py time c =
      { r := (sampleAt m 2 px py time c 0 0).r, g := (sampleAt m 2 px py time c 0 0).g,
        b := (sampleAt m 2 px py time c 0 0).b, a := 255 } := by
  have hs : sampleAt m 1 px py time c 0 0 = sampleAt m 2 px py time c 0 0 := by
    unfold sampleAt
    rw [samplePoint_single]
  obtain ⟨hr, hg, hb⟩ := sampleAt_lt m 2 px py time c 0 0
  unfold calcPixelValueWith
  simp only [accumulate_one, hs]
  have e : ∀ n : ℕ, n < 256 → ucharOfFloat ((n : α) / ((1 * 1 : ℕ) : α)) = n := by
    intro n hn
    rw [ucharOfFloat_natCast_div n (1 * 1) (by simpa using hn)]
    simp
  rw [e _ hr, e _ hg, e _ hb]

theorem calcPixelValueWith_two (m : libm α) (px py : ℤ) (time : α) (c : quaternion α) :
    calcPixelValueWith 2 m px py time c =
      { r := ((sampleAt m 2 px py time c 0 0).r + (sampleAt m 2 px py time c 1 0).r
          + (sampleAt m 2 px py time c 0 1).r + (sampleAt m 2 px py time c 1 1).r) / 4
        g := ((sampleAt m 2 px py time c 0 0).g + (sampleAt m 2 px py time c 1 0).g
          + (sampleAt m 2 px py time c 0 1).g + (sampleAt m 2 px py time c 1 1).g) / 4
        b := ((sampleAt m 2 px py time c 0 0).b + (sampleAt m 2 px py time c 1 0).b
          + (sampleAt m 2 px py time c 0 1).b + (sampleAt m 2 px py time c 1 1).b) / 4
        a := 255 } := by
  obtain ⟨r1, g1, b1⟩ := sampleAt_lt m 2 px py time c 0 0
  obtain ⟨r2, g2, b2⟩ := sampleAt_lt m 2 px py time c 1 0
  obtain ⟨r3, g3, b3⟩ := sampleAt_lt m 2 px py time c 0 1
  obtain ⟨r4, g4, b4⟩ := sampleAt_lt m 2 px py time c 1 1
  unfold calcPixelValueWith
  simp only [accumulate_two]
  rw [ucharOfFloat_natCast_div _ (2 * 2) (by omega), ucharOfFloat_natCast_div _ (2 * 2) (by omega),
    ucharOfFloat_natCast_div _ (2 * 2) (by omega)]

end AverageFacts

/-! ## Facts about the frame buffer -/

section Frame

theorem foldl_set_length {ι β : Type} (g : ι → ℕ) (v : ι → β) (l : List ι) (buf : List β) :
    (l.foldl (fun b p => b.set (g p) (v p)) buf).length = buf.length := by
  induction l generalizing buf with
  | nil => rfl
  | cons a l ih => rw [List.foldl_cons, ih, List.length_set]

/-- A slot that holds `x` keeps it when every later write to that slot writes `x`. -/
theorem foldl_set_keep {ι β : Type} (g : ι → ℕ) (v : ι → β) (l : List ι) (buf : List β)
    (k : ℕ) (x : β) (hk : buf[k]? = some x) (hsame : ∀ a ∈ l, g a = k → v a = x) :
    (l.foldl (fun b p => b.set (g p) (v p)) buf)[k]? = some x := by
  induction l generalizing buf with
  | nil => exact hk
  | cons a l ih =>
    rw [List.foldl_cons]
    apply ih
    · by_cases h : g a = k
      · have hlt : k < buf.length := by
          rcases List.getElem?_eq_some.mp hk with ⟨h1, _⟩
          exact h1
        rw [h, List.getElem?_set_self, ← hsame a (List.mem_cons_self _ _) h]
        simp [hlt]
      · rw [List.getElem?_set_ne h]
        exact hk
    · intro b hb
      exact hsame b (List.mem_cons_of_mem _ hb)

/-- After all writes, the slot of an element of the list holds that element's value,
provided the writes that hit this slot all carry the same value. -/
theorem foldl_set_written {ι β : Type} (g : ι → ℕ) (v : ι → β) (l : List ι) (buf : List β)
    (i : ι) (hi : i ∈ l) (hlt : g i < buf.length)
    (hsame : ∀ a ∈ l, g a = g i → v a = v i) :
    (l.foldl (fun b p => b.set (g p) (v p)) buf)[g i]? = some (v i) := by
  induction l generalizing buf with
  | nil => exact absurd hi (List.not_mem_nil _)
  | cons a l ih =>
    rw [List.foldl_cons]
    by_cases h : g a = g i
    · apply foldl_set_keep
      · rw [h, List.getElem?_set_self, hsame a (List.mem_cons_self _ _) h]
        simp [hlt]
      · intro b hb
        exact hsame b (List.mem_cons_of_mem _ hb)
    · have hne : i ≠ a := fun e => h (by rw [e])
      have hi2 : i ∈ l := by
        rcases List.mem_cons.mp hi with e | e
        · exact absurd e hne
        · exact e
      apply ih _ hi2
      · rw [List.length_set]; exact hlt
      · intro b hb
        exact hsame b (List.mem_cons_of_mem _ hb)

theorem mem_rowMajor (p : ℕ × ℕ) : p ∈ rowMajor ↔ p.1 < height ∧ p.2 < width := by
  unfold rowMajor
  simp only [List.mem_flatMap, List.mem_map, List.mem_range]
  constructor
  · rintro ⟨y, hy, x, hx, rfl⟩
    exact ⟨hy, hx⟩
  · rintro ⟨hy, hx⟩
    exact ⟨p.1, hy, p.2, hx, rfl⟩

/-- Distinct pixels of the frame have distinct slots `y * width + x`. -/
theorem slot_injective (x y x2 y2 : ℕ) (hx : x < width) (hx2 : x2 < width)
    (h : y * width + x = y2 * width + x2) : x = x2 ∧ y = y2 := by
  unfold width at *
  omega

/-- The slots `y * width + x` of the frame's pixels are exactly the indices below
`width * height`. -/
theorem slot_cover (i : ℕ) :
    i < width * height ↔ ∃ x y, x < width ∧ y < height ∧ i = y * width + x := by
  unfold width height
  constructor
  · intro h
    exact ⟨i % 800, i / 800, by omega, by omega, by omega⟩
  · rintro ⟨x, y, hx, hy, rfl⟩
    omega

end Frame

section FrameRender

variable {α : Type} [LinearOrderedField α] [FloorRing α]

theorem renderFrameIn_length (order : List (ℕ × ℕ)) (m : libm α) (buf : List Color)
    (time : α) (c : quaternion α) :
    (renderFrameIn order m buf time c).length = buf.length :=
  foldl_set_length (fun p : ℕ × ℕ => p.1 * width + p.2)
    (fun p : ℕ × ℕ => calcPixelValue m (p.2 : ℤ) (p.1 : ℤ) time c) order buf

/-- Whatever the order, once every pixel of the frame has been processed its slot
holds its `calcPixelValue`. -/
theorem renderFrameIn_slot (order : List (ℕ × ℕ)) (m : libm α) (buf : List Color)
    (time : α) (c : quaternion α) (hmem : ∀ p, p ∈ order ↔ p.1 < height ∧ p.2 < width)
    (hlen : buf.length = width * height) (x y : ℕ) (hx : x < width) (hy : y < height) :
    (renderFrameIn order m buf time c)[y * width + x]?
      = some (calcPixelValue m (x : ℤ) (y : ℤ) time c) := by
  have hlt : y * width + x < buf.length := by
    rw [hlen]
    exact (slot_cover _).mpr ⟨x, y, hx, hy, rfl⟩
  refine foldl_set_written (fun p : ℕ × ℕ => p.1 * width + p.2)
    (fun p : ℕ × ℕ => calcPixelValue m (p.2 : ℤ) (p.1 : ℤ) time c) order buf (y, x)
    ((hmem (y, x)).mpr ⟨hy, hx⟩) hlt ?_
  intro a ha hslot
  obtain ⟨h1, h2⟩ := slot_injective a.2 a.1 x y ((hmem a).mp ha).2 hx hslot
  show calcPixelValue m (a.2 : ℤ) (a.1 : ℤ) time c = calcPixelValue m (x : ℤ) (y : ℤ) time c
  rw [h1, h2]

/-- Two complete schedules give the same buffer, from any two initial buffers of
the frame's size. -/
theorem renderFrameIn_congr (o1 o2 : List (ℕ × ℕ)) (m : libm α) (b1 b2 : List Color)
    (time : α) (c : quaternion α) (h1 : ∀ p, p ∈ o1 ↔ p.1 < height ∧ p.2 < width)
    (h2 : ∀ p, p ∈ o2 ↔ p.1 < height ∧ p.2 < width)
    (l1 : b1.length = width * height) (l2 : b2.length = width * height) :
    renderFrameIn o1 m b1 time c = renderFrameIn o2 m b2 time c := by
  apply List.ext_getElem?
  intro i
  by_cases hi : i < width * height
  · obtain ⟨x, y, hx, hy, rfl⟩ := (slot_cover i).mp hi
    rw [renderFrameIn_slot o1 m b1 time c h1 l1 x y hx hy,
      renderFrameIn_slot o2 m b2 time c h2 l2 x y hx hy]
  · have e1 : (renderFrameIn o1 m b1 time c)[i]? = none := by
      apply List.getElem?_eq_none
      rw [renderFrameIn_length, l1]
      exact not_lt.mp hi
    have e2 : (renderFrameIn o2 m b2 time c)[i]? = none := by
      apply List.getElem?_eq_none
      rw [renderFrameIn_length, l2]
      exact not_lt.mp hi
    rw [e1, e2]

end FrameRender

/-! ## Main statements -/

section Claims

variable {α : Type} [LinearOrderedField α]

/-- C1: for every seed `z0`, constant `c` and cap `maxIter`, the escape-time loop
stops after some number `n ≤ maxIter` of executions of its body `z := z*z + c`,
and the iteration count it returns is that `n`, so `0 ≤ iter ≤ maxIter`. -/
theorem escapeLoop_terminates_within_maxIter (c z0 : quaternion α) (maxIter : Nat) :
    ∃ n : Nat, n ≤ maxIter ∧ escapeLoop c maxIter z0 0 = (orbit c z0 n, n) ∧
      0 ≤ (escapeLoop c maxIter z0 0).2 ∧ (escapeLoop c maxIter z0 0).2 ≤ maxIter := by
  have h := escapeLoop_from_orbit c z0 maxIter 0 (Nat.zero_le _) (fun j hj => absurd hj (Nat.not_lt_zero j))
  refine ⟨(escapeLoop c maxIter z0 0).2, h.2.1, ?_, Nat.zero_le _, h.2.1⟩
  exact Prod.ext h.1 rfl

/-- C5: if the seed already has `norm2(z0) ≥ 4`, the loop body is executed zero
times: the loop returns `iter = 0` and the final quaternion is `z0`. -/
theorem escapeLoop_escaped_seed (c z0 : quaternion α) (maxIter : Nat)
    (h : 4 ≤ z0.norm2) : escapeLoop c maxIter z0 0 = (z0, 0) :=
  escapeLoop_stop c z0 maxIter h

theorem escapeLoop_escaped_seed_witness :
    4 ≤ (⟨2, 0, 0, 0⟩ : quaternion ℚ).norm2 ∧
      escapeLoop (⟨-0.745, 0.113, 0.05, 0⟩ : quaternion ℚ) 40 ⟨2, 0, 0, 0⟩ 0 = (⟨2, 0, 0, 0⟩, 0) :=
  ⟨by norm_num [quaternion.norm2],
    escapeLoop_escaped_seed _ _ 40 (by norm_num [quaternion.norm2])⟩

/-- C8 (amended): with `z_0 = z0`, `z_{k+1} = z_k*z_k + c`, for every scalar
arithmetic (numbers that may round, NaN included) the loop returns
`(finalQuaternion, iterationsUsed)` where `finalQuaternion = z_{iterationsUsed}`,
`iterationsUsed ≤ maxIter`, the test `norm2(z_k) < 4` is true for every
`k < iterationsUsed`, and `iterationsUsed < maxIter` implies that the test
`norm2(finalQuaternion) < 4` is false; hence `iterationsUsed` is the least
`k ≤ maxIter` at which the test is false when such a `k` exists, and it is
`maxIter` when the test is true for every `k < maxIter`. -/
theorem escapeLoop_first_failed_test {β : Type} [Add β] [Sub β] [Mul β] [LT β] [OfNat β 4]
    [∀ a b : β, Decidable (a < b)] (c z0 : quaternion β) (maxIter : Nat) :
    (escapeLoop c maxIter z0 0).1 = orbit c z0 (escapeLoop c maxIter z0 0).2 ∧
      (escapeLoop c maxIter z0 0).2 ≤ maxIter ∧
      (∀ k, k < (escapeLoop c maxIter z0 0).2 → (orbit c z0 k).norm2 < 4) ∧
      ((escapeLoop c maxIter z0 0).2 < maxIter →
        ¬ ((escapeLoop c maxIter z0 0).1).norm2 < 4) ∧
      ((∃ k, k ≤ maxIter ∧ ¬ (orbit c z0 k).norm2 < 4) →
        IsLeast {k | k ≤ maxIter ∧ ¬ (orbit c z0 k).norm2 < 4} (escapeLoop c maxIter z0 0).2) ∧
      ((∀ k, k < maxIter → (orbit c z0 k).norm2 < 4) →
        (escapeLoop c maxIter z0 0).2 = maxIter) := by
  have h := escapeLoop_along_orbit c z0 maxIter 0 (Nat.zero_le _)
    (fun j hj => absurd hj (Nat.not_lt_zero j))
  have h0 : orbit c z0 0 = z0 := rfl
  rw [h0] at h
  obtain ⟨h1, h2, h3, h4⟩ := h
  refine ⟨h1, h2, h3, ?_, ?_, ?_⟩
  · intro hlt
    rw [h1]
    exact h4 hlt
  · rintro ⟨k, hk, hesc⟩
    constructor
    · refine ⟨h2, ?_⟩
      rcases Nat.lt_or_ge (escapeLoop c maxIter z0 0).2 maxIter with hlt | hge
      · exact h4 hlt
      · have hEq : (escapeLoop c maxIter z0 0).2 = maxIter := le_antisymm h2 hge
        have hkge : ¬ k < (escapeLoop c maxIter z0 0).2 := fun hk2 => hesc (h3 k hk2)
        have hkEq : k = (escapeLoop c maxIter z0 0).2 := by omega
        rw [← hkEq]
        exact hesc
    · rintro j ⟨_, hj⟩
      by_contra hlt
      exact hj (h3 j (not_le.mp hlt))
  · intro hall
    by_contra hne
    have hlt : (escapeLoop c maxIter z0 0).2 < maxIter := lt_of_le_of_ne h2 hne
    exact h4 hlt (hall _ hlt)

/-- C8 (as stated) fails: with the seed `(0,0,0,0)`, the constant `(NaN,0,0,0)` and
`maxIter = 40` the loop returns `iterationsUsed = 1 < 40`, although
`norm2(finalQuaternion) >= 4` is false (the squared norm is NaN). -/
theorem escapeLoop_nan_constant_exits_below_four :
    (escapeLoop (⟨.nan, 0, 0, 0⟩ : quaternion (WithNaN ℚ)) 40 ⟨0, 0, 0, 0⟩ 0).2 = 1 ∧
      (escapeLoop (⟨.nan, 0, 0, 0⟩ : quaternion (WithNaN ℚ)) 40 ⟨0, 0, 0, 0⟩ 0).2 < 40 ∧
      ¬ (4 ≤ (escapeLoop (⟨.nan, 0, 0, 0⟩ : quaternion (WithNaN ℚ)) 40 ⟨0, 0, 0, 0⟩ 0).1.norm2) := by
  rw [escapeLoop_nan_run]
  refine ⟨rfl, by norm_num, ?_⟩
  show ¬ (4 ≤ (⟨.nan, 0, 0, 0⟩ : quaternion (WithNaN ℚ)).norm2)
  rw [norm2_nan_run]
  exact WithNaN.not_le_nan _

/-- C2: when the loop finished with `iter == max_iter` (`max_iter = 40`), the
colour-mapping branch yields exactly `bg_color = (0x1B, 0x1B, 0x1B, 0xFF)`, whatever
the final quaternion, the time and the `<cmath>` functions are. -/
theorem sampleColorOf_max_iter_is_bg {β : Type} [LinearOrderedField β] [FloorRing β]
    (m : libm β) (time : β) (quat : quaternion β) :
    max_iter = 40 ∧ sampleColorOf m time max_iter quat = bg_color ∧
      sampleColorOf m time 40 quat = ⟨0x1B, 0x1B, 0x1B, 0xFF⟩ := by
  refine ⟨rfl, ?_, ?_⟩
  · simp [sampleColorOf]
  · simp [sampleColorOf, max_iter, bg_color]

/-- C4: for `c = (0,0,0,0)` and seed `(0,0,0,0)` every iterate is the zero
quaternion and for every cap the loop returns `iter = maxIter`; the seed of
sub-sample `sx = sy = 0` of pixel `(width/2, height/2) = (400, 225)` is that zero
quaternion, so with `c = 0` this sample gets `bg_color`. -/
theorem zero_seed_never_escapes {β : Type} [LinearOrderedField β] [FloorRing β]
    (m : libm β) (time : β) (maxIter : Nat) :
    (∀ k, orbit (⟨0, 0, 0, 0⟩ : quaternion β) ⟨0, 0, 0, 0⟩ k = ⟨0, 0, 0, 0⟩) ∧
      escapeLoop (⟨0, 0, 0, 0⟩ : quaternion β) maxIter ⟨0, 0, 0, 0⟩ 0 = (⟨0, 0, 0, 0⟩, maxIter) ∧
      (width / 2, height / 2) = (400, 225) ∧
      (samplePoint antialias_samples 400 225 0 0 : quaternion β) = ⟨0, 0, 0, 0⟩ ∧
      sampleAt m antialias_samples 400 225 time ⟨0, 0, 0, 0⟩ 0 0 = bg_color := by
  refine ⟨orbit_zero, escapeLoop_zero maxIter, rfl, samplePoint_centre, ?_⟩
  simp only [sampleAt, samplePoint_centre, escapeLoop_zero, sampleColorOf, if_true]

/-- C10: for every constant `c` whose fourth component is `0`, every pixel and
sub-sample, every iterate `z_k` of `z := z*z + c` started from the seed
`{jx, jy, 0, 0}` has fourth component `0`, and so has the quaternion the loop
stops with. -/
theorem orbit_fourth_component_zero (c : quaternion α) (hc : c.z = 0) (S : Nat) (px py : ℤ)
    (sx sy : Nat) (maxIter : Nat) :
    (∀ k, (orbit c (samplePoint S px py sx sy) k).z = 0) ∧
      (escapeLoop c maxIter (samplePoint S px py sx sy) 0).1.z = 0 := by
  have hseed : (samplePoint S px py sx sy : quaternion α).z = 0 := rfl
  refine ⟨orbit_z_eq_zero c _ hseed hc, ?_⟩
  have h := escapeLoop_from_orbit c (samplePoint S px py sx sy) maxIter 0 (Nat.zero_le _)
    (fun j hj => absurd hj (Nat.not_lt_zero j))
  have h0 : orbit c (samplePoint S px py sx sy) 0 = samplePoint S px py sx sy := rfl
  rw [h0] at h
  rw [h.1]
  exact orbit_z_eq_zero c _ hseed hc _

theorem orbit_fourth_component_zero_witness :
    (⟨-0.745, 0.113, 0.05, 0⟩ : quaternion ℚ).z = 0 ∧
      ((∀ k, (orbit (⟨-0.745, 0.113, 0.05, 0⟩ : quaternion ℚ) (samplePoint 2 3 4 1 0) k).z = 0) ∧
        (escapeLoop (⟨-0.745, 0.113, 0.05, 0⟩ : quaternion ℚ) 40 (samplePoint 2 3 4 1 0) 0).1.z = 0) :=
  ⟨rfl, orbit_fourth_component_zero _ rfl 2 3 4 1 0 40⟩

/-- C3 (amended): over real arithmetic with `expf = exp`, for every `smoothed ≥ -6`
(in particular `smoothed = 0` and `smoothed = 1000`) and every time, the truncated
products `channel * depth` of the escaped branch lie in `[0, 255]` for R, G and B,
so the conversion to `unsigned char` leaves them unchanged. -/
theorem shaded_channels_in_range (m : libm ℝ) (hexp : m.expf = Real.exp)
    (smoothed time : ℝ) (h : -6 ≤ smoothed) :
    (0 ≤ shadedValue (baseColor m smoothed time).r (depthOf m smoothed) ∧
        shadedValue (baseColor m smoothed time).r (depthOf m smoothed) ≤ 255) ∧
      (0 ≤ shadedValue (baseColor m smoothed time).g (depthOf m smoothed) ∧
        shadedValue (baseColor m smoothed time).g (depthOf m smoothed) ≤ 255) ∧
      (0 ≤ shadedValue (baseColor m smoothed time).b (depthOf m smoothed) ∧
        shadedValue (baseColor m smoothed time).b (depthOf m smoothed) ≤ 255) ∧
      ((shadeColor m smoothed time).r : ℤ)
        = shadedValue (baseColor m smoothed time).r (depthOf m smoothed) ∧
      ((shadeColor m smoothed time).g : ℤ)
        = shadedValue (baseColor m smoothed time).g (depthOf m smoothed) ∧
      ((shadeColor m smoothed time).b : ℤ)
        = shadedValue (baseColor m smoothed time).b (depthOf m smoothed) := by
  obtain ⟨hd0, hd1⟩ := depthOf_range m hexp smoothed h
  obtain ⟨hr, hg, hb⟩ := baseColor_lt m smoothed time
  have vr := shadedValue_range _ hr _ hd0 hd1.le
  have vg := shadedValue_range _ hg _ hd0 hd1.le
  have vb := shadedValue_range _ hb _ hd0 hd1.le
  exact ⟨vr, vg, vb, ucharOfInt_of_range _ vr.1 vr.2, ucharOfInt_of_range _ vg.1 vg.2,
    ucharOfInt_of_range _ vb.1 vb.2⟩

theorem shaded_channels_in_range_witness :
    (-6 : ℝ) ≤ 1000 ∧
      ((0 ≤ shadedValue (baseColor (⟨Real.sqrt, Real.logb 2, Real.sin, fun x y => x ^ y, Real.exp⟩ : libm ℝ) 1000 0).r
            (depthOf (⟨Real.sqrt, Real.logb 2, Real.sin, fun x y => x ^ y, Real.exp⟩ : libm ℝ) 1000) ∧
          shadedValue (baseColor (⟨Real.sqrt, Real.logb 2, Real.sin, fun x y => x ^ y, Real.exp⟩ : libm ℝ) 1000 0).r
            (depthOf (⟨Real.sqrt, Real.logb 2, Real.sin, fun x y => x ^ y, Real.exp⟩ : libm ℝ) 1000) ≤ 255) ∧
        (0 ≤ shadedValue (baseColor (⟨Real.sqrt, Real.logb 2, Real.sin, fun x y => x ^ y, Real.exp⟩ : libm ℝ) 1000 0).g
            (depthOf (⟨Real.sqrt, Real.logb 2, Real.sin, fun x y => x ^ y, Real.exp⟩ : libm ℝ) 1000) ∧
          shadedValue (baseColor (⟨Real.sqrt, Real.logb 2, Real.sin, fun x y => x ^ y, Real.exp⟩ : libm ℝ) 1000 0).g
            (depthOf (⟨Real.sqrt, Real.logb 2, Real.sin, fun x y => x ^ y, Real.exp⟩ : libm ℝ) 1000) ≤ 255) ∧
        (0 ≤ shadedValue (baseColor (⟨Real.sqrt, Real.logb 2, Real.sin, fun x y => x ^ y, Real.exp⟩ : libm ℝ) 1000 0).b
            (depthOf (⟨Real.sqrt, Real.logb 2, Real.sin, fun x y => x ^ y, Real.exp⟩ : libm ℝ) 1000) ∧
          shadedValue (baseColor (⟨Real.sqrt, Real.logb 2, Real.sin, fun x y => x ^ y, Real.exp⟩ : libm ℝ) 1000 0).b
            (depthOf (⟨Real.sqrt, Real.logb 2, Real.sin, fun x y => x ^ y, Real.exp⟩ : libm ℝ) 1000) ≤ 255) ∧
        ((shadeColor (⟨Real.sqrt, Real.logb 2, Real.sin, fun x y => x ^ y, Real.exp⟩ : libm ℝ) 1000 0).r : ℤ)
          = shadedValue (baseColor (⟨Real.sqrt, Real.logb 2, Real.sin, fun x y => x ^ y, Real.exp⟩ : libm ℝ) 1000 0).r
            (depthOf (⟨Real.sqrt, Real.logb 2, Real.sin, fun x y => x ^ y, Real.exp⟩ : libm ℝ) 1000) ∧
        ((shadeColor (⟨Real.sqrt, Real.logb 2, Real.sin, fun x y => x ^ y, Real.exp⟩ : libm ℝ) 1000 0).g : ℤ)
          = shadedValue (baseColor (⟨Real.sqrt, Real.logb 2, Real.sin, fun x y => x ^ y, Real.exp⟩ : libm ℝ) 1000 0).g
            (depthOf (⟨Real.sqrt, Real.logb 2, Real.sin, fun x y => x ^ y, Real.exp⟩ : libm ℝ) 1000) ∧
        ((shadeColor (⟨Real.sqrt, Real.logb 2, Real.sin, fun x y => x ^ y, Real.exp⟩ : libm ℝ) 1000 0).b : ℤ)
          = shadedValue (baseColor (⟨Real.sqrt, Real.logb 2, Real.sin, fun x y => x ^ y, Real.exp⟩ : libm ℝ) 1000 0).b
            (depthOf (⟨Real.sqrt, Real.logb 2, Real.sin, fun x y => x ^ y, Real.exp⟩ : libm ℝ) 1000)) :=
  ⟨by norm_num,
    shaded_channels_in_range ⟨Real.sqrt, Real.logb 2, Real.sin, fun x y => x ^ y, Real.exp⟩ rfl
      1000 0 (by norm_num)⟩

/-- C3 (as stated) fails: at the finite value `smoothed = -100` (and `time = 0`)
the depth factor is negative and the truncated green product is below `0`, outside
`[0, 255]`. -/
theorem shaded_green_negative_at_minus_100 :
    shadedValue
        (baseColor (⟨Real.sqrt, Real.logb 2, Real.sin, fun x y => x ^ y, Real.exp⟩ : libm ℝ)
          (-100) 0).g
        (depthOf (⟨Real.sqrt, Real.logb 2, Real.sin, fun x y => x ^ y, Real.exp⟩ : libm ℝ) (-100))
      < 0 := by
  generalize hm : (⟨Real.sqrt, Real.logb 2, Real.sin, fun x y => x ^ y, Real.exp⟩ : libm ℝ) = m
  have hexp : m.expf = Real.exp := by rw [← hm]
  have hd := depthOf_neg_hundred m hexp
  have hg := baseColor_g_ge m (-100) 0
  have hgR : (128 : ℝ) ≤ ((baseColor m (-100) 0).g : ℝ) := by exact_mod_cast hg
  have hx : (((baseColor m (-100) 0).g : ℝ)) * depthOf m (-100) ≤ ((-1 : ℤ) : ℝ) := by
    push_cast
    nlinarith
  unfold shadedValue
  rw [truncZ_of_neg _ (by push_cast at hx; linarith)]
  have := Int.ceil_le.mpr hx
  omega

/-- C9: over real arithmetic (`sqrtf = sqrt`, `log2f = log2`), whenever the loop of
`calcPixelValue` ends with `iter != max_iter`, the final quaternion has
`norm2 ≥ 4`, so `dist ≥ 2`, `log2(dist) ≥ 1`, the clamp `max(1, log2(dist))` equals
`log2(dist)`, and `smoothed = iter - log2(log2(dist)) ≤ iter`; this holds for every
seed, hence for every pixel and sub-sample, and every `c`. -/
theorem smoothed_clamp_inactive (m : libm ℝ) (hsqrt : m.sqrtf = Real.sqrt)
    (hlog : m.log2f = Real.logb 2) (c z0 : quaternion ℝ)
    (hesc : (escapeLoop c max_iter z0 0).2 ≠ max_iter) :
    4 ≤ (escapeLoop c max_iter z0 0).1.norm2 ∧
      2 ≤ distOf m (escapeLoop c max_iter z0 0).1 ∧
      1 ≤ m.log2f (distOf m (escapeLoop c max_iter z0 0).1) ∧
      max 1 (m.log2f (distOf m (escapeLoop c max_iter z0 0).1))
        = m.log2f (distOf m (escapeLoop c max_iter z0 0).1) ∧
      smoothedOf m (escapeLoop c max_iter z0 0).2 (escapeLoop c max_iter z0 0).1
        = ((escapeLoop c max_iter z0 0).2 : ℝ)
          - Real.logb 2 (Real.logb 2 (distOf m (escapeLoop c max_iter z0 0).1)) ∧
      smoothedOf m (escapeLoop c max_iter z0 0).2 (escapeLoop c max_iter z0 0).1
        ≤ ((escapeLoop c max_iter z0 0).2 : ℝ) := by
  have h := escapeLoop_from_orbit c z0 max_iter 0 (Nat.zero_le _)
    (fun j hj => absurd hj (Nat.not_lt_zero j))
  have h0 : orbit c z0 0 = z0 := rfl
  rw [h0] at h
  obtain ⟨h1, h2, _, h4⟩ := h
  have hn : 4 ≤ (escapeLoop c max_iter z0 0).1.norm2 := by
    rw [h1]
    exact h4 (lt_of_le_of_ne h2 hesc)
  have hdist : 2 ≤ distOf m (escapeLoop c max_iter z0 0).1 := by
    unfold distOf quaternion.norm
    rw [hsqrt]
    exact Real.le_sqrt_of_sq_le (by norm_num; linarith)
  have hl : 1 ≤ m.log2f (distOf m (escapeLoop c max_iter z0 0).1) := by
    rw [hlog, Real.le_logb_iff_rpow_le (by norm_num) (by linarith)]
    simpa using hdist
  have hmax : max 1 (m.log2f (distOf m (escapeLoop c max_iter z0 0).1))
      = m.log2f (distOf m (escapeLoop c max_iter z0 0).1) := max_eq_right hl
  have hsm : smoothedOf m (escapeLoop c max_iter z0 0).2 (escapeLoop c max_iter z0 0).1
      = ((escapeLoop c max_iter z0 0).2 : ℝ)
        - Real.logb 2 (Real.logb 2 (distOf m (escapeLoop c max_iter z0 0).1)) := by
    unfold smoothedOf
    rw [hmax, hlog]
  refine ⟨hn, hdist, hl, hmax, hsm, ?_⟩
  rw [hsm]
  have : 0 ≤ Real.logb 2 (Real.logb 2 (distOf m (escapeLoop c max_iter z0 0).1)) := by
    rw [hlog] at hl
    exact Real.logb_nonneg (by norm_num) hl
  linarith

theorem smoothed_clamp_inactive_witness :
    (escapeLoop (⟨0, 0, 0, 0⟩ : quaternion ℝ) max_iter ⟨3, 0, 0, 0⟩ 0).2 ≠ max_iter ∧
      smoothedOf (⟨Real.sqrt, Real.logb 2, Real.sin, fun x y => x ^ y, Real.exp⟩ : libm ℝ)
          (escapeLoop (⟨0, 0, 0, 0⟩ : quaternion ℝ) max_iter ⟨3, 0, 0, 0⟩ 0).2
          (escapeLoop (⟨0, 0, 0, 0⟩ : quaternion ℝ) max_iter ⟨3, 0, 0, 0⟩ 0).1
        ≤ ((escapeLoop (⟨0, 0, 0, 0⟩ : quaternion ℝ) max_iter ⟨3, 0, 0, 0⟩ 0).2 : ℝ) :=
  have hesc : (escapeLoop (⟨0, 0, 0, 0⟩ : quaternion ℝ) max_iter ⟨3, 0, 0, 0⟩ 0).2 ≠ max_iter := by
    rw [escapeLoop_stop _ _ _ (by norm_num [quaternion.norm2])]
    decide
  ⟨hesc, (smoothed_clamp_inactive _ rfl rfl _ _ hesc).2.2.2.2.2⟩

end Claims

section FrameClaims

variable {α : Type} [LinearOrderedField α] [FloorRing α]

/-- C7: for every pixel, time and `c`, and each of the channels R, G, B, the value
`calcPixelValue` returns with `antialias_samples = 2` (the source's value) differs
from the one it returns with `antialias_samples = 1` by at most the difference
between the channel values of two samples of the pixel's 2x2 sample neighbourhood. -/
theorem antialias_average_bound (m : libm α) (px py : ℤ) (time : α) (c : quaternion α) :
    calcPixelValue m px py time c = calcPixelValueWith 2 m px py time c ∧
    (∃ sx sy tx ty : ℕ, sx < 2 ∧ sy < 2 ∧ tx < 2 ∧ ty < 2 ∧
      |((calcPixelValueWith 2 m px py time c).r : ℤ) - ((calcPixelValueWith 1 m px py time c).r : ℤ)|
        ≤ |((sampleAt m 2 px py time c sx sy).r : ℤ) - ((sampleAt m 2 px py time c tx ty).r : ℤ)|) ∧
    (∃ sx sy tx ty : ℕ, sx < 2 ∧ sy < 2 ∧ tx < 2 ∧ ty < 2 ∧
      |((calcPixelValueWith 2 m px py time c).g : ℤ) - ((calcPixelValueWith 1 m px py time c).g : ℤ)|
        ≤ |((sampleAt m 2 px py time c sx sy).g : ℤ) - ((sampleAt m 2 px py time c tx ty).g : ℤ)|) ∧
    (∃ sx sy tx ty : ℕ, sx < 2 ∧ sy < 2 ∧ tx < 2 ∧ ty < 2 ∧
      |((calcPixelValueWith 2 m px py time c).b : ℤ) - ((calcPixelValueWith 1 m px py time c).b : ℤ)|
        ≤ |((sampleAt m 2 px py time c sx sy).b : ℤ) - ((sampleAt m 2 px py time c tx ty).b : ℤ)|) := by
  refine ⟨rfl, ?_⟩
  rw [calcPixelValueWith_one, calcPixelValueWith_two]
  exact ⟨mean_of_four_bound (fun sx sy => (sampleAt m 2 px py time c sx sy).r),
    mean_of_four_bound (fun sx sy => (sampleAt m 2 px py time c sx sy).g),
    mean_of_four_bound (fun sx sy => (sampleAt m 2 px py time c sx sy).b)⟩

/-- C6: for every order in which the pixels of the frame are processed (a
permutation of the sequential iteration order) and every initial buffer of
`width * height` entries, the resulting buffer holds `calcPixelValue(x, y, time, c)`
in slot `y * width + x` for every `x < width`, `y < height`; it equals the buffer of
the sequential `renderFrame` and does not depend on the previous buffer contents;
the slots of distinct pixels are distinct and cover exactly `[0, width*height)`. -/
theorem renderFrame_schedule_independent (order : List (ℕ × ℕ)) (m : libm α)
    (frame_buffer : List Color) (time : α) (c : quaternion α)
    (hperm : order.Perm rowMajor) (hlen : frame_buffer.length = width * height) :
    (∀ x y, x < width → y < height →
        (renderFrameIn order m frame_buffer time c)[y * width + x]?
          = some (calcPixelValue m (x : ℤ) (y : ℤ) time c)) ∧
      (renderFrameIn order m frame_buffer time c).length = width * height ∧
      renderFrameIn order m frame_buffer time c = renderFrame m frame_buffer time c ∧
      (∀ other : List Color, other.length = width * height →
        renderFrameIn order m other time c = renderFrameIn order m frame_buffer time c) ∧
      (∀ x y x2 y2, x < width → x2 < width → y * width + x = y2 * width + x2 →
        x = x2 ∧ y = y2) ∧
      (∀ i, i < width * height ↔ ∃ x y, x < width ∧ y < height ∧ i = y * width + x) := by
  have hmem : ∀ p, p ∈ order ↔ p.1 < height ∧ p.2 < width := fun p =>
    (hperm.mem_iff).trans (mem_rowMajor p)
  refine ⟨renderFrameIn_slot order m frame_buffer time c hmem hlen, ?_, ?_, ?_,
    slot_injective, slot_cover⟩
  · rw [renderFrameIn_length, hlen]
  · exact renderFrameIn_congr order rowMajor m frame_buffer frame_buffer time c hmem
      mem_rowMajor hlen hlen
  · intro other hother
    exact renderFrameIn_congr order order m other frame_buffer time c hmem hmem hother hlen

theorem renderFrame_schedule_independent_witness :
    rowMajor.reverse.Perm rowMajor ∧
      (List.replicate (width * height) (⟨0, 0, 0, 255⟩ : Color)).length = width * height ∧
      renderFrameIn rowMajor.reverse (⟨id, id, id, fun x _ => x, id⟩ : libm ℚ)
          (List.replicate (width * height) ⟨0, 0, 0, 255⟩) 0 ⟨-0.745, 0.113, 0.05, 0⟩
        = renderFrame (⟨id, id, id, fun x _ => x, id⟩ : libm ℚ)
          (List.replicate (width * height) ⟨0, 0, 0, 255⟩) 0 ⟨-0.745, 0.113, 0.05, 0⟩ :=
  ⟨List.reverse_perm _, List.length_replicate _ _,
    (renderFrame_schedule_independent rowMajor.reverse _ _ 0 _ (List.reverse_perm _)
      (List.length_replicate _ _)).2.2.1⟩

end FrameClaims


end QuatFractal
